import Mathlib

/-!
Verification of the repominer mining core (repominer/mining/base.py and
python_utils/python_miner.py).

The development embeds the data model and the four pipeline operations of
`BaseMiner` — `sort_commits`, `discard_undesired_fixing_commits`,
`get_fixed_files`, `label` — and the `FixingCommitClassifier`, as pure Lean
functions.  External collaborators (the git access layer, the blame oracle,
the NLTK tokenizer and the lexical pattern rules) are parameters of the
embedding, exactly as the specification designates them as out of scope.
Chronological order is the order of `commit_hashes` (ascending creation
date); `position` is the list index.  Python exceptions (IndexError on an
empty-list subscript) are modelled by `Option`, with `none` for a raised
exception.
-/

namespace RepoMiner

/-- Change kind of a modified file (pydriller `ModificationType`). -/
inductive ModificationType where
  | ADD
  | COPY
  | RENAME
  | DELETE
  | MODIFY
  | UNKNOWN
deriving DecidableEq

/-- One modified file of a commit, with the fields the miner reads:
change type, old/new path, source content, and the parsed diff
(`diff_parsed`) as added/deleted numbered lines. -/
structure ModifiedFile where
  change_type : ModificationType
  old_path : String
  new_path : String
  source_code : Option String
  diff_added : List (Nat × String)
  diff_deleted : List (Nat × String)
deriving DecidableEq

/-- A commit, restricted to the fields the miner reads: its hash, message
and modified files. -/
structure Commit where
  hash : String
  msg : String
  modified_files : List ModifiedFile
deriving DecidableEq

/-- A file fixed by a fixing commit: filepath, bug-introducing commit hash
(`bic`) and fixing commit hash (`fic`) (repominer.files.FixedFile). -/
structure FixedFile where
  filepath : String
  bic : String
  fic : String
deriving DecidableEq

/-- A failure-prone file record: the filepath at the time of `commit`, the
commit hash and the fixing commit hash (repominer.files.FailureProneFile). -/
structure FailureProneFile where
  filepath : String
  commit : String
  fixing_commit : String
deriving DecidableEq

/-! ### Python dict, specialised to the rename maps

The rename maps (`renamed_files` in `get_fixed_files` and in `label`) are
Python dicts from path to path.  They are embedded as association lists in
which an assignment shadows earlier bindings: lookup returns the most
recent binding, deletion removes the key. -/

/-- `m.get(k)`: first (most recent) binding of `k`. -/
def renGet (m : List (String × String)) (k : String) : Option String :=
  (m.find? (fun p => decide (p.1 = k))).map Prod.snd

/-- `m.get(k, d)`: lookup with default. -/
def renGetD (m : List (String × String)) (k : String) (d : String) : String :=
  (renGet m k).getD d

/-- `m[k] = v`: assignment (shadows any earlier binding of `k`). -/
def renSet (m : List (String × String)) (k v : String) : List (String × String) :=
  (k, v) :: m

/-- `del m[k]`: deletion of a key (no-op when the key is absent, which the
source guards for anyway). -/
def renDel (m : List (String × String)) (k : String) : List (String × String) :=
  m.filter (fun p => decide (p.1 ≠ k))

/-! ### Commit history index -/

/-- `self.commit_hashes.index(h)`: chronological position of a hash in the
branch history.  The Python `list.index` raises `ValueError` on an absent
hash; every use in the source looks up a hash known to be in the history,
and there this function agrees with it (an absent hash yields the list
length). -/
def index_of (hashes : List String) (h : String) : Nat :=
  hashes.findIdx (fun x => decide (x = h))

/-- `BaseMiner.sort_commits` (base.py lines 408-420), as the value the
argument list holds after the in-place update: the commit hashes of the
history, in history (chronological) order, restricted to those contained in
the argument. -/
def sort_commits (hashes : List String) (commits : List String) : List String :=
  hashes.filter (fun sha => decide (sha ∈ commits))

/-! ### Helper lemmas on `index_of` -/

theorem index_of_cons_self (x : String) (t : List String) :
    index_of (x :: t) x = 0 := by
  simp [ index_of, List.findIdx_cons]

theorem index_of_cons_ne (x h : String) (t : List String) (hne : h ≠ x) :
    index_of (x :: t) h = index_of t h + 1 := by
  simp [ index_of, List.findIdx_cons, Ne.symm hne]

/-- In a duplicate-free history, distinct positions order the elements:
the history list is pairwise increasing in `index_of`. -/
theorem pairwise_index_of (hashes : List String) (hnd : hashes.Nodup) :
    hashes.Pairwise (fun a b => index_of hashes a < index_of hashes b) := by
  induction hashes with
  | nil => exact List.Pairwise.nil
  | cons x t ih =>
    rw [List.nodup_cons] at hnd
    obtain ⟨hx, hndt⟩ := hnd
    refine List.Pairwise.cons ?_ ?_
    · intro b hb
      have hbx : b ≠ x := fun hEq => hx (hEq ▸ hb)
      rw [index_of_cons_self, index_of_cons_ne x b t hbx]
      exact Nat.succ_pos _
    · refine (ih hndt).imp_of_mem ?_
      intro a b ha hb hab
      have hax : a ≠ x := fun hEq => hx (hEq ▸ ha)
      have hbx : b ≠ x := fun hEq => hx (hEq ▸ hb)
      rw [index_of_cons_ne x a t hax, index_of_cons_ne x b t hbx]
      exact Nat.succ_lt_succ hab

/-- C5: `sort_commits` is idempotent — sorting an already-sorted list
leaves it unchanged — and its result is a filter-and-reorder of the commit
history: every output hash comes from the input, the output is a sublist of
the history, it has no duplicates and is in strictly ascending
chronological position whenever the history is duplicate-free, and input
hashes absent from the history are dropped. -/
theorem sort_commits_filter_reorder :
    (∀ hashes xs : List String,
      sort_commits hashes (sort_commits hashes xs) = sort_commits hashes xs)
    ∧ (∀ hashes xs : List String, ∀ h ∈ sort_commits hashes xs, h ∈ xs)
    ∧ (∀ hashes xs : List String, List.Sublist (sort_commits hashes xs) hashes)
    ∧ (∀ hashes xs : List String, hashes.Nodup → (sort_commits hashes xs).Nodup)
    ∧ (∀ hashes xs : List String, hashes.Nodup →
        (sort_commits hashes xs).Pairwise
          (fun a b => index_of hashes a < index_of hashes b))
    ∧ (∀ hashes xs : List String, ∀ h ∈ xs, h ∉ hashes → h ∉ sort_commits hashes xs) := by
  refine ⟨?_, ?_, ?_, ?_, ?_, ?_⟩
  · intro hashes xs
    apply List.filter_congr
    intro s hs
    apply decide_eq_decide.mpr
    simp [sort_commits, List.mem_filter, hs]
  · intro hashes xs h hmem
    have := List.mem_filter.mp hmem
    simpa using this.2
  · intro hashes xs
    exact List.filter_sublist hashes
  · intro hashes xs hnd
    exact hnd.filter _
  · intro hashes xs hnd
    exact (pairwise_index_of hashes hnd).sublist (List.filter_sublist hashes)
  · intro hashes xs h _ hnh hcon
    exact hnh (List.mem_filter.mp hcon).1

/-! ### Labeling engine (`BaseMiner.label`, base.py lines 363-406) -/

/-- The window test of the labeling loop: `idx_fic > idx_commit >= idx_bic`
(base.py line 398). -/
def windowHolds (hashes : List String) (chash : String) (f : FixedFile) : Bool :=
  decide (index_of hashes f.fic > index_of hashes chash)
    && decide (index_of hashes chash ≥ index_of hashes f.bic)

/-- The records yielded while visiting one commit: one `FailureProneFile`
per fixed file whose window contains the commit, with the filepath read
through the rename map (base.py lines 392-401). -/
def labelEmitAt (hashes : List String) (ff : List FixedFile)
    (ρ : List (String × String)) (c : Commit) : List FailureProneFile :=
  ff.filterMap (fun f =>
    if windowHolds hashes c.hash f then
      some { filepath := renGetD ρ f.filepath f.filepath,
             commit := c.hash, fixing_commit := f.fic }
    else none)

/-- The rename-map update performed after emitting for a commit:
`renamed_files[new_path] = old_path` for every RENAME-type modified file
(base.py lines 404-406). -/
def updateRenames (ρ : List (String × String)) (files : List ModifiedFile) :
    List (String × String) :=
  files.foldl
    (fun m mf =>
      if mf.change_type = ModificationType.RENAME then renSet m mf.new_path mf.old_path
      else m) ρ

/-- The labeling traversal: visit the given commits in order (the caller
passes them newest-first), emit for each, then update the rename map. -/
def labelGo (hashes : List String) (ff : List FixedFile) :
    List Commit → List (String × String) → List FailureProneFile
  | [], _ => []
  | c :: rest, ρ =>
    labelEmitAt hashes ff ρ c ++ labelGo hashes ff rest (updateRenames ρ c.modified_files)

/-- `BaseMiner.label` (base.py lines 363-406).  Empty fixing-commit or
fixed-file lists yield the empty sequence (line 377-378).  Otherwise the
fixing commits are sorted in place and history is traversed from the newest
fixing commit down to the oldest commit of the whole history; `none` models
the `IndexError` raised when, after sorting, no fixing commit is left in
the history (`self.fixing_commits[-1]` on an empty list). -/
def label (hist : List Commit) (fixing : List String) (fixed : List FixedFile) :
    Option (List FailureProneFile) :=
  if fixing = [] ∨ fixed = [] then some []
  else
    let hashes := hist.map Commit.hash
    match (sort_commits hashes fixing).getLast? with
    | none => none
    | some lastFix =>
      some (labelGo hashes fixed ((hist.take (index_of hashes lastFix + 1)).reverse) [])

/-! ### Resolution engine (`BaseMiner.get_fixed_files`, base.py lines 236-335) -/

/-- Modelled from the spec: equality of `FixedFile` objects, used by the
`in` and `.index` dedup tests of `get_fixed_files`, lives in
repominer/files.py, which is not among the provided sources.  The spec
states "FixedFile: identity = filepath" and that the dedup rule is "keyed
by filepath (after applying renameMap)", so two FixedFiles are equal
exactly when their filepaths are equal. -/
def ffSamePath (a b : FixedFile) : Bool :=
  decide (a.filepath = b.filepath)

/-- The mutable state of one `get_fixed_files` run: the `fixed_files` list
being built and the `renamed_files` dict. -/
structure FFState where
  fixed_files : List FixedFile
  renamed_files : List (String × String)
deriving DecidableEq

/-- The dedup/merge step for one candidate `FixedFile` (base.py lines
314-335): no entry with this filepath yet — append; the candidate's fic
older than the existing entry's bic — append a separate entry under the
file's `new_path` after clearing any rename tracking for that path; the
candidate's bic older than the existing entry's bic — update the existing
entry's bic in place; otherwise leave the state unchanged. -/
def mergeFix (hashes : List String) (st : FFState) (newPath : String)
    (cur : FixedFile) : FFState :=
  match st.fixed_files.findIdx? (fun g => ffSamePath g cur) with
  | none => { st with fixed_files := st.fixed_files ++ [cur] }
  | some i =>
    match st.fixed_files[i]? with
    | none => st
    | some existing =>
      if index_of hashes cur.fic < index_of hashes existing.bic then
        { fixed_files := st.fixed_files ++ [{ cur with filepath := newPath }],
          renamed_files := renDel st.renamed_files newPath }
      else if index_of hashes cur.bic < index_of hashes existing.bic then
        { st with fixed_files :=
            st.fixed_files.set i { existing with bic := cur.bic } }
      else st

/-- The backward rename tracking of the resolution traversal (base.py
lines 286-291): on a RENAME-type file, record
`renamed_files[old_path] = renamed_files.get(new_path, new_path)`. -/
def renameStep (st : FFState) (mf : ModifiedFile) : FFState :=
  if mf.change_type = ModificationType.RENAME then
    { st with
      renamed_files := renSet st.renamed_files mf.old_path
        (renGetD st.renamed_files mf.new_path mf.new_path) }
  else st

theorem renameStep_fixed_files (st : FFState) (mf : ModifiedFile) :
    (renameStep st mf).fixed_files = st.fixed_files := by
  unfold renameStep
  split <;> rfl

/-- Processing of one modified file of a traversed commit (base.py lines
279-335).  `blame c p` stands for
`git_repo.get_commits_last_modified_lines(commit, modified_file).get(p)`
at commit hash `c` (empty list for a falsy result).  `none` models the
`IndexError` raised by `bug_inducing_commits[0]` when the blame result is
non-empty but none of its hashes occurs in the branch history. -/
def processFile (hashes fixing : List String)
    (ignore : String → Option String → Bool)
    (blame : String → String → List String)
    (chash : String) (st : FFState) (mf : ModifiedFile) : Option FFState :=
  if mf.change_type = ModificationType.MODIFY
      ∨ mf.change_type = ModificationType.RENAME then
    let st1 : FFState := renameStep st mf
    if chash ∈ fixing then
      if ignore mf.new_path mf.source_code then some st1
      else if blame chash mf.new_path = [] then some st1
      else
        match sort_commits hashes (blame chash mf.new_path) with
        | [] => none
        | bic :: _ =>
          some (mergeFix hashes st1 mf.new_path
            { filepath := renGetD st1.renamed_files mf.new_path mf.new_path,
              bic := bic, fic := chash })
    else some st1
  else some st

/-- Processing of all modified files of one traversed commit, in order. -/
def processFiles (hashes fixing : List String)
    (ignore : String → Option String → Bool)
    (blame : String → String → List String)
    (chash : String) : FFState → List ModifiedFile → Option FFState
  | st, [] => some st
  | st, mf :: rest =>
    match processFile hashes fixing ignore blame chash st mf with
    | none => none
    | some st' => processFiles hashes fixing ignore blame chash st' rest

/-- The resolution traversal over a list of commits (the caller passes the
slice of history from the newest fixing commit down to the oldest,
newest-first). -/
def processCommits (hashes fixing : List String)
    (ignore : String → Option String → Bool)
    (blame : String → String → List String) :
    List Commit → FFState → Option FFState
  | [], st => some st
  | c :: rest, st =>
    match processFiles hashes fixing ignore blame c.hash st c.modified_files with
    | none => none
    | some st' => processCommits hashes fixing ignore blame rest st'

/-- `BaseMiner.get_fixed_files` (base.py lines 236-335).  With no fixing
commits the method returns at once, leaving the caller's `fixed_files`
(`prior`) untouched.  Otherwise the fixing commits are sorted in place,
`fixed_files` is reset, and history is traversed from the newest fixing
commit down to the oldest one (`order='reverse'`; a single fixing commit
yields a single-commit traversal).  `none` models an uncaught exception
(`self.fixing_commits[-1]` on a list left empty by the sort, or the
`IndexError` of `processFile`). -/
def get_fixed_files (hist : List Commit) (fixing : List String)
    (ignore : String → Option String → Bool)
    (blame : String → String → List String)
    (prior : List FixedFile) : Option (List FixedFile) :=
  if fixing = [] then some prior
  else
    let hashes := hist.map Commit.hash
    match sort_commits hashes fixing with
    | [] => none
    | f :: rest =>
      let lo := index_of hashes f
      let hi := index_of hashes ((f :: rest).getLast (List.cons_ne_nil f rest))
      let traversal := ((hist.drop lo).take (hi - lo + 1)).reverse
      (processCommits hashes (f :: rest) ignore blame traversal
          { fixed_files := [], renamed_files := [] }).map FFState.fixed_files

/-- Witness for C5 at a concrete history and input list. -/
theorem sort_commits_filter_reorder_witness :
    (sort_commits ["a", "b", "c"] ["c", "a", "x"]).Nodup
    ∧ (sort_commits ["a", "b", "c"] ["c", "a", "x"]).Pairwise
        (fun u v => index_of ["a", "b", "c"] u < index_of ["a", "b", "c"] v)
    ∧ "x" ∉ sort_commits ["a", "b", "c"] ["c", "a", "x"] :=
  ⟨sort_commits_filter_reorder.2.2.2.1 ["a", "b", "c"] ["c", "a", "x"] (by decide),
   sort_commits_filter_reorder.2.2.2.2.1 ["a", "b", "c"] ["c", "a", "x"] (by decide),
   sort_commits_filter_reorder.2.2.2.2.2 ["a", "b", "c"] ["c", "a", "x"] "x"
     (by decide) (by decide)⟩

/-! ### Concrete histories for the scenario claims -/

/-- A commit with no modified files. -/
def mkCommit (h : String) : Commit :=
  { hash := h, msg := "", modified_files := [] }

/-- An eleven-commit history h0..h10 (positions 0..10). -/
def histC1 : List Commit :=
  [mkCommit "h0", mkCommit "h1", mkCommit "h2", mkCommit "h3", mkCommit "h4",
   mkCommit "h5", mkCommit "h6", mkCommit "h7", mkCommit "h8", mkCommit "h9",
   mkCommit "h10"]

/-- A fixed file whose bug-introducing commit sits at position 5 and whose
fixing commit sits at position 10 of `histC1`. -/
def ffC1 : FixedFile :=
  { filepath := "file", bic := "h5", fic := "h10" }

/-- C1: the labeling engine emits a `FailureProneFile` for a fixed file at
a traversed commit exactly when the commit's position lies in
`[position bic, position fic)`: the records emitted while visiting a
commit are precisely those of the fixed files whose window test passes,
and, concretely, for a fixed file with bic at position 5 and fic at
position 10 of an eleven-commit history, exactly the commits at positions
5 through 9 yield a record — the fixing commit itself yields none. -/
theorem labeling_window_correct :
    (∀ (hashes : List String) (ff : List FixedFile) (ρ : List (String × String))
        (c : Commit),
      labelEmitAt hashes ff ρ c =
        (ff.filter (fun f => windowHolds hashes c.hash f)).map
          (fun f => { filepath := renGetD ρ f.filepath f.filepath,
                      commit := c.hash, fixing_commit := f.fic }))
    ∧ label histC1 ["h10"] [ffC1] =
        some [{ filepath := "file", commit := "h9", fixing_commit := "h10" },
              { filepath := "file", commit := "h8", fixing_commit := "h10" },
              { filepath := "file", commit := "h7", fixing_commit := "h10" },
              { filepath := "file", commit := "h6", fixing_commit := "h10" },
              { filepath := "file", commit := "h5", fixing_commit := "h10" }] := by
  constructor
  · intro hashes ff ρ c
    induction ff with
    | nil => rfl
    | cons f rest ih =>
      simp only [labelEmitAt, List.filterMap_cons, List.filter_cons] at *
      by_cases hw : windowHolds hashes c.hash f = true
      · simp [hw, ih]
      · simp [hw, ih]
  · decide

/-- A five-commit history in which commit h2 renames `a.txt` to `b.txt`. -/
def histC4 : List Commit :=
  [mkCommit "h0", mkCommit "h1",
   { hash := "h2", msg := "",
     modified_files := [{ change_type := ModificationType.RENAME,
                          old_path := "a.txt", new_path := "b.txt",
                          source_code := none, diff_added := [], diff_deleted := [] }] },
   mkCommit "h3", mkCommit "h4"]

/-- C4: the labeling traversal updates the rename map only after emitting
the records of the current commit, so with `a.txt` renamed to `b.txt` at
commit h2 and a fixed file tracking `b.txt` with bic h0 (before the
rename) and fic h4, the emitted records carry filepath `b.txt` for the
commits at or after the rename and `a.txt` for the commits strictly before
it. -/
theorem rename_propagation :
    (∀ (hashes : List String) (ff : List FixedFile) (ρ : List (String × String))
        (c : Commit) (rest : List Commit),
      labelGo hashes ff (c :: rest) ρ =
        labelEmitAt hashes ff ρ c
          ++ labelGo hashes ff rest (updateRenames ρ c.modified_files))
    ∧ label histC4 ["h4"] [{ filepath := "b.txt", bic := "h0", fic := "h4" }] =
        some [{ filepath := "b.txt", commit := "h3", fixing_commit := "h4" },
              { filepath := "b.txt", commit := "h2", fixing_commit := "h4" },
              { filepath := "a.txt", commit := "h1", fixing_commit := "h4" },
              { filepath := "a.txt", commit := "h0", fixing_commit := "h4" }] := by
  exact ⟨fun _ _ _ _ _ => rfl, by decide⟩

/-- C7: invoking a pipeline step before its inputs are populated yields an
empty result rather than an error: `get_fixed_files` with an empty
fixing-commit list returns at once with the caller's prior `fixed_files`
(in particular leaving an empty list empty), for every blame collaborator
— so the blame oracle is never consulted — and `label` with an empty
fixing-commit list or an empty fixed-file list yields the empty
sequence. -/
theorem empty_inputs_yield_empty_results :
    (∀ (hist : List Commit) (ignore : String → Option String → Bool)
        (blame : String → String → List String) (prior : List FixedFile),
      get_fixed_files hist [] ignore blame prior = some prior)
    ∧ (∀ (hist : List Commit) (ff : List FixedFile), label hist [] ff = some [])
    ∧ (∀ (hist : List Commit) (fx : List String), label hist fx [] = some []) := by
  refine ⟨?_, ?_, ?_⟩
  · intro hist ignore blame prior
    simp [get_fixed_files]
  · intro hist ff
    simp [label]
  · intro hist fx
    simp [label]

/-! ### The bic-before-fic invariant of the resolution engine (C2) -/

/-- Every fixed file of a list has its bug-introducing commit at or before
its fixing commit in chronological position. -/
def ResolutionInv (hashes : List String) (ffs : List FixedFile) : Prop :=
  ∀ f ∈ ffs, index_of hashes f.bic ≤ index_of hashes f.fic

theorem mergeFix_inv (hashes : List String) (st : FFState) (newPath : String)
    (cur : FixedFile) (hst : ResolutionInv hashes st.fixed_files)
    (hcur : index_of hashes cur.bic ≤ index_of hashes cur.fic) :
    ResolutionInv hashes (mergeFix hashes st newPath cur).fixed_files := by
  rcases hfind : st.fixed_files.findIdx? (fun g => ffSamePath g cur) with _ | i
  · simp only [mergeFix, hfind]
    intro f hf
    rcases List.mem_append.mp hf with h | h
    · exact hst f h
    · rcases List.mem_singleton.mp h with rfl
      exact hcur
  · rcases hget : st.fixed_files[i]? with _ | existing
    · simp only [mergeFix, hfind, hget]
      exact hst
    · have hex : existing ∈ st.fixed_files := List.getElem?_mem hget
      simp only [mergeFix, hfind, hget]
      by_cases h1 : index_of hashes cur.fic < index_of hashes existing.bic
      · rw [if_pos h1]
        intro f hf
        rcases List.mem_append.mp hf with h | h
        · exact hst f h
        · rcases List.mem_singleton.mp h with rfl
          exact hcur
      · rw [if_neg h1]
        by_cases h2 : index_of hashes cur.bic < index_of hashes existing.bic
        · rw [if_pos h2]
          intro f hf
          rcases List.mem_or_eq_of_mem_set hf with h | h
          · exact hst f h
          · rcases h with rfl
            exact Nat.le_trans (Nat.le_of_lt h2) (hst existing hex)
        · rw [if_neg h2]
          exact hst

theorem processFile_inv (hashes fixing : List String)
    (ignore : String → Option String → Bool)
    (blame : String → String → List String)
    (chash : String) (st : FFState) (mf : ModifiedFile) (st' : FFState)
    (H : ∀ p h, h ∈ blame chash p → h ∈ hashes →
      index_of hashes h ≤ index_of hashes chash)
    (hst : ResolutionInv hashes st.fixed_files)
    (hrun : processFile hashes fixing ignore blame chash st mf = some st') :
    ResolutionInv hashes st'.fixed_files := by
  have hst1 : ResolutionInv hashes (renameStep st mf).fixed_files := by
    rw [renameStep_fixed_files]
    exact hst
  simp only [processFile] at hrun
  split_ifs at hrun with hty hfx hig hbl
  · exact Option.some_inj.mp hrun ▸ hst1
  · exact Option.some_inj.mp hrun ▸ hst1
  · rcases hsort : sort_commits hashes (blame chash mf.new_path) with _ | ⟨bic, tail⟩
    · rw [hsort] at hrun
      exact absurd hrun (by simp)
    · rw [hsort] at hrun
      simp only [Option.some_inj] at hrun
      have hbic : bic ∈ sort_commits hashes (blame chash mf.new_path) := by
        rw [hsort]
        exact List.mem_cons_self bic tail
      have hbic' := List.mem_filter.mp hbic
      have hinH : bic ∈ hashes := hbic'.1
      have hinB : bic ∈ blame chash mf.new_path := by simpa using hbic'.2
      refine hrun ▸ mergeFix_inv hashes (renameStep st mf) mf.new_path _ hst1 ?_
      exact H mf.new_path bic hinB hinH
  · exact Option.some_inj.mp hrun ▸ hst1
  · exact Option.some_inj.mp hrun ▸ hst

theorem processFiles_inv (hashes fixing : List String)
    (ignore : String → Option String → Bool)
    (blame : String → String → List String)
    (chash : String) (files : List ModifiedFile) (st st' : FFState)
    (H : ∀ p h, h ∈ blame chash p → h ∈ hashes →
      index_of hashes h ≤ index_of hashes chash)
    (hst : ResolutionInv hashes st.fixed_files)
    (hrun : processFiles hashes fixing ignore blame chash st files = some st') :
    ResolutionInv hashes st'.fixed_files := by
  induction files generalizing st with
  | nil =>
    simp only [processFiles, Option.some_inj] at hrun
    exact hrun ▸ hst
  | cons mf rest ih =>
    simp only [processFiles] at hrun
    rcases hpf : processFile hashes fixing ignore blame chash st mf with _ | st1
    · rw [hpf] at hrun
      exact absurd hrun (by simp)
    · rw [hpf] at hrun
      exact ih st1
        (processFile_inv hashes fixing ignore blame chash st mf st1 H hst hpf) hrun

theorem processCommits_inv (hashes fixing : List String)
    (ignore : String → Option String → Bool)
    (blame : String → String → List String)
    (cs : List Commit) (st st' : FFState)
    (H : ∀ c p h, h ∈ blame c p → h ∈ hashes →
      index_of hashes h ≤ index_of hashes c)
    (hst : ResolutionInv hashes st.fixed_files)
    (hrun : processCommits hashes fixing ignore blame cs st = some st') :
    ResolutionInv hashes st'.fixed_files := by
  induction cs generalizing st with
  | nil =>
    simp only [processCommits, Option.some_inj] at hrun
    exact hrun ▸ hst
  | cons c rest ih =>
    simp only [processCommits] at hrun
    rcases hpc : processFiles hashes fixing ignore blame c.hash st c.modified_files
        with _ | st1
    · rw [hpc] at hrun
      exact absurd hrun (by simp)
    · rw [hpc] at hrun
      exact ih st1
        (processFiles_inv hashes fixing ignore blame c.hash c.modified_files st st1
          (fun p h => H c.hash p h) hst hpc) hrun

/-- C2: under the blame collaborator's contract — every blame-returned
hash that occurs in the branch history is positioned at or before the
queried commit — every `FixedFile` produced by `get_fixed_files` has its
bug-introducing commit chronologically at or before its fixing commit. -/
theorem fixed_files_bic_le_fic (hist : List Commit) (fixing : List String)
    (ignore : String → Option String → Bool)
    (blame : String → String → List String)
    (prior out : List FixedFile)
    (H : ∀ c p h, h ∈ blame c p → h ∈ hist.map Commit.hash →
      index_of (hist.map Commit.hash) h ≤ index_of (hist.map Commit.hash) c)
    (hfix : fixing ≠ [])
    (hrun : get_fixed_files hist fixing ignore blame prior = some out) :
    ∀ f ∈ out,
      index_of (hist.map Commit.hash) f.bic ≤ index_of (hist.map Commit.hash) f.fic := by
  rw [get_fixed_files, if_neg hfix] at hrun
  dsimp only at hrun
  rcases hsort : sort_commits (hist.map Commit.hash) fixing with _ | ⟨f0, rest⟩
  · rw [hsort] at hrun
    exact absurd hrun (by simp)
  · rw [hsort] at hrun
    simp only at hrun
    obtain ⟨stf, hpc, hout⟩ := Option.map_eq_some'.mp hrun
    refine hout ▸ processCommits_inv (hist.map Commit.hash) (f0 :: rest) ignore blame
      _ { fixed_files := [], renamed_files := [] } stf H ?_ hpc
    intro f hf
    exact absurd hf (List.not_mem_nil f)

/-- Witness for C2: a three-commit history whose fixing commit c2 modifies
file `f`, with a blame oracle answering `c0`. -/
def histC2 : List Commit :=
  [mkCommit "c0", mkCommit "c1",
   { hash := "c2", msg := "",
     modified_files := [{ change_type := ModificationType.MODIFY,
                          old_path := "f", new_path := "f",
                          source_code := none, diff_added := [], diff_deleted := [] }] }]

theorem fixed_files_bic_le_fic_witness :
    index_of (histC2.map Commit.hash) "c0" ≤ index_of (histC2.map Commit.hash) "c2" := by
  refine fixed_files_bic_le_fic histC2 ["c2"] (fun _ _ => false) (fun _ _ => ["c0"])
    [] [{ filepath := "f", bic := "c0", fic := "c2" }] ?_ (by decide) (by decide)
    { filepath := "f", bic := "c0", fic := "c2" } (by decide)
  intro c p h hm _
  have hh : h = "c0" := by simpa using hm
  subst hh
  exact Nat.zero_le _

/-! ### The grow-only property of the fixed-files collection (C9) -/

/-- The immutable part of a `FixedFile` entry: its filepath and fixing
commit.  Only the bic of an entry may be rewritten after creation. -/
def shapeFF (f : FixedFile) : String × String :=
  (f.filepath, f.fic)

/-- `GrowsTo old new`: the new collection keeps every old entry at its
position, with filepath and fic untouched (only the bic may differ), and
only appends beyond the old length. -/
def GrowsTo (old new : List FixedFile) : Prop :=
  old.length ≤ new.length
    ∧ (new.take old.length).map shapeFF = old.map shapeFF

theorem growsTo_refl (l : List FixedFile) : GrowsTo l l := by
  constructor
  · exact Nat.le_refl _
  · rw [List.take_of_length_le (Nat.le_refl _)]

theorem growsTo_trans (l₁ l₂ l₃ : List FixedFile)
    (h12 : GrowsTo l₁ l₂) (h23 : GrowsTo l₂ l₃) : GrowsTo l₁ l₃ := by
  obtain ⟨hl12, he12⟩ := h12
  obtain ⟨hl23, he23⟩ := h23
  refine ⟨Nat.le_trans hl12 hl23, ?_⟩
  have h1 : l₃.take l₁.length = (l₃.take l₂.length).take l₁.length := by
    rw [List.take_take, Nat.min_eq_left hl12]
  rw [h1, List.map_take, he23, ← List.map_take, he12]

theorem growsTo_append (l tail : List FixedFile) : GrowsTo l (l ++ tail) := by
  constructor
  · simp
  · simp

theorem map_shape_set (l : List FixedFile) (i : Nat) (existing e' : FixedFile)
    (hget : l[i]? = some existing) (hsh : shapeFF e' = shapeFF existing) :
    (l.set i e').map shapeFF = l.map shapeFF := by
  induction l generalizing i with
  | nil => simp at hget
  | cons x t ih =>
    cases i with
    | zero =>
      simp only [List.getElem?_cons_zero, Option.some_inj] at hget
      simp [List.set, hget ▸ hsh]
    | succ n =>
      simp only [List.getElem?_cons_succ] at hget
      simp [List.set, ih n hget]

theorem mergeFix_growsTo (hashes : List String) (st : FFState) (newPath : String)
    (cur : FixedFile) :
    GrowsTo st.fixed_files (mergeFix hashes st newPath cur).fixed_files := by
  rcases hfind : st.fixed_files.findIdx? (fun g => ffSamePath g cur) with _ | i
  · simp only [mergeFix, hfind]
    exact growsTo_append _ _
  · rcases hget : st.fixed_files[i]? with _ | existing
    · simp only [mergeFix, hfind, hget]
      exact growsTo_refl _
    · simp only [mergeFix, hfind, hget]
      by_cases h1 : index_of hashes cur.fic < index_of hashes existing.bic
      · rw [if_pos h1]
        exact growsTo_append _ _
      · rw [if_neg h1]
        by_cases h2 : index_of hashes cur.bic < index_of hashes existing.bic
        · rw [if_pos h2]
          refine ⟨Nat.le_of_eq (List.length_set st.fixed_files i _).symm, ?_⟩
          rw [List.take_of_length_le
            (Nat.le_of_eq (List.length_set st.fixed_files i _))]
          exact map_shape_set st.fixed_files i existing _ hget rfl
        · rw [if_neg h2]
          exact growsTo_refl _

theorem processFile_growsTo (hashes fixing : List String)
    (ignore : String → Option String → Bool)
    (blame : String → String → List String)
    (chash : String) (st : FFState) (mf : ModifiedFile) (st' : FFState)
    (hrun : processFile hashes fixing ignore blame chash st mf = some st') :
    GrowsTo st.fixed_files st'.fixed_files := by
  have hst1 : (renameStep st mf).fixed_files = st.fixed_files :=
    renameStep_fixed_files st mf
  simp only [processFile] at hrun
  split_ifs at hrun with hty hfx hig hbl
  · exact Option.some_inj.mp hrun ▸ hst1 ▸ growsTo_refl _
  · exact Option.some_inj.mp hrun ▸ hst1 ▸ growsTo_refl _
  · rcases hsort : sort_commits hashes (blame chash mf.new_path) with _ | ⟨bic, tail⟩
    · rw [hsort] at hrun
      exact absurd hrun (by simp)
    · rw [hsort] at hrun
      simp only [Option.some_inj] at hrun
      refine hrun ▸ hst1 ▸ ?_
      exact mergeFix_growsTo hashes (renameStep st mf) mf.new_path _
  · exact Option.some_inj.mp hrun ▸ hst1 ▸ growsTo_refl _
  · exact Option.some_inj.mp hrun ▸ growsTo_refl _

theorem processFiles_growsTo (hashes fixing : List String)
    (ignore : String → Option String → Bool)
    (blame : String → String → List String)
    (chash : String) (files : List ModifiedFile) (st st' : FFState)
    (hrun : processFiles hashes fixing ignore blame chash st files = some st') :
    GrowsTo st.fixed_files st'.fixed_files := by
  induction files generalizing st with
  | nil =>
    simp only [processFiles, Option.some_inj] at hrun
    exact hrun ▸ growsTo_refl _
  | cons mf rest ih =>
    simp only [processFiles] at hrun
    rcases hpf : processFile hashes fixing ignore blame chash st mf with _ | st1
    · rw [hpf] at hrun
      exact absurd hrun (by simp)
    · rw [hpf] at hrun
      exact growsTo_trans _ _ _
        (processFile_growsTo hashes fixing ignore blame chash st mf st1 hpf)
        (ih st1 hrun)

/-- C9: a `FixedFile` entry, once created by the resolution engine, is
never deleted: across any traversed span of commits the fixed-files
collection only grows — every entry the state held before is still at its
position afterwards with the same filepath and fixing commit (only the bic
may have been moved), and new entries are only appended. -/
theorem fixed_files_never_deleted (hashes fixing : List String)
    (ignore : String → Option String → Bool)
    (blame : String → String → List String)
    (cs : List Commit) (st st' : FFState)
    (hrun : processCommits hashes fixing ignore blame cs st = some st') :
    GrowsTo st.fixed_files st'.fixed_files := by
  induction cs generalizing st with
  | nil =>
    simp only [processCommits, Option.some_inj] at hrun
    exact hrun ▸ growsTo_refl _
  | cons c rest ih =>
    simp only [processCommits] at hrun
    rcases hpc : processFiles hashes fixing ignore blame c.hash st c.modified_files
        with _ | st1
    · rw [hpc] at hrun
      exact absurd hrun (by simp)
    · rw [hpc] at hrun
      exact growsTo_trans _ _ _
        (processFiles_growsTo hashes fixing ignore blame c.hash c.modified_files st st1 hpc)
        (ih st1 hrun)

/-- Witness for C9: replaying the fixing commit of `histC2` on a state that
already holds an entry for `g` appends an entry for `f` and keeps `g`. -/
theorem fixed_files_never_deleted_witness :
    GrowsTo [{ filepath := "g", bic := "c0", fic := "c1" }]
      [{ filepath := "g", bic := "c0", fic := "c1" },
       { filepath := "f", bic := "c0", fic := "c2" }] := by
  refine fixed_files_never_deleted (histC2.map Commit.hash) ["c2"]
    (fun _ _ => false) (fun _ _ => ["c0"]) histC2
    { fixed_files := [{ filepath := "g", bic := "c0", fic := "c1" }],
      renamed_files := [] }
    { fixed_files := [{ filepath := "g", bic := "c0", fic := "c1" },
                      { filepath := "f", bic := "c0", fic := "c2" }],
      renamed_files := [] } (by decide)

/-- C10: in the resolution of a bug-introducing commit, if the blame
result for a qualifying MODIFY-type file of a fixing commit is non-empty
but none of its hashes occurs in the branch history, processing the file
raises (`bug_inducing_commits[0]` on the empty list `sort_commits` leaves)
instead of skipping the file. -/
theorem bic_outside_history_raises (hashes fixing : List String)
    (ignore : String → Option String → Bool)
    (blame : String → String → List String)
    (chash : String) (st : FFState) (mf : ModifiedFile)
    (hty : mf.change_type = ModificationType.MODIFY)
    (hfx : chash ∈ fixing)
    (hig : ignore mf.new_path mf.source_code = false)
    (hne : blame chash mf.new_path ≠ [])
    (hout : ∀ h ∈ blame chash mf.new_path, h ∉ hashes) :
    processFile hashes fixing ignore blame chash st mf = none := by
  have hsort : sort_commits hashes (blame chash mf.new_path) = [] := by
    refine List.filter_eq_nil_iff.mpr ?_
    intro x hx
    simp only [decide_eq_true_eq]
    intro hmem
    exact hout x hmem hx
  simp [processFile, hty, hfx, hig, hne, hsort]

/-- Witness for C10: a blame oracle answering a hash absent from the
history makes `processFile` raise on the fixing commit's file. -/
theorem bic_outside_history_raises_witness :
    processFile (histC2.map Commit.hash) ["c2"] (fun _ _ => false)
      (fun _ _ => ["zzz"]) "c2" { fixed_files := [], renamed_files := [] }
      { change_type := ModificationType.MODIFY, old_path := "f", new_path := "f",
        source_code := none, diff_added := [], diff_deleted := [] } = none := by
  refine bic_outside_history_raises (histC2.map Commit.hash) ["c2"]
    (fun _ _ => false) (fun _ _ => ["zzz"]) "c2"
    { fixed_files := [], renamed_files := [] } _ (by decide) (by decide) (by decide)
    (by decide) (by decide)

/-! ### The deduplication rule of the resolution engine (C3) -/

/-- A MODIFY-type change of file `f`. -/
def mfModifyF : ModifiedFile :=
  { change_type := ModificationType.MODIFY, old_path := "f", new_path := "f",
    source_code := none, diff_added := [], diff_deleted := [] }

/-- A four-commit history with two fixing commits on the same file `f`:
c1 fixes a bug introduced at c0, c3 fixes a bug introduced at c2. -/
def histC3 : List Commit :=
  [mkCommit "c0",
   { hash := "c1", msg := "", modified_files := [mfModifyF] },
   { hash := "c2", msg := "", modified_files := [mfModifyF] },
   { hash := "c3", msg := "", modified_files := [mfModifyF] }]

/-- The blame oracle of the two-disjoint-fixes scenario: the lines fixed at
c3 were last touched at c2, the lines fixed at c1 were last touched at
c0. -/
def blameC3 (c : String) (_ : String) : List String :=
  if c = "c3" then ["c2"] else if c = "c1" then ["c0"] else []

/-- C3: the dedup rule of the resolution engine, keyed by filepath: with no
existing entry for the candidate's filepath the candidate is appended; with
an existing entry, a candidate whose fic is chronologically older than the
existing entry's bic is appended as a separate entry under the file's
`new_path` with the rename tracking for that path cleared; otherwise a
candidate whose bic is older than the existing entry's bic updates the
existing entry's bic in place; otherwise the candidate is ignored.  Two
disjoint fixes of the same filepath at non-overlapping times therefore
produce two separate `FixedFile` entries. -/
theorem dedup_rule_behaviour :
    (∀ (hashes : List String) (st : FFState) (np : String) (cur : FixedFile),
      st.fixed_files.findIdx? (fun g => ffSamePath g cur) = none →
      mergeFix hashes st np cur = { st with fixed_files := st.fixed_files ++ [cur] })
    ∧ (∀ (hashes : List String) (st : FFState) (np : String) (cur : FixedFile)
        (i : Nat) (existing : FixedFile),
      st.fixed_files.findIdx? (fun g => ffSamePath g cur) = some i →
      st.fixed_files[i]? = some existing →
      index_of hashes cur.fic < index_of hashes existing.bic →
      mergeFix hashes st np cur =
        { fixed_files := st.fixed_files ++ [{ cur with filepath := np }],
          renamed_files := renDel st.renamed_files np })
    ∧ (∀ (hashes : List String) (st : FFState) (np : String) (cur : FixedFile)
        (i : Nat) (existing : FixedFile),
      st.fixed_files.findIdx? (fun g => ffSamePath g cur) = some i →
      st.fixed_files[i]? = some existing →
      ¬ index_of hashes cur.fic < index_of hashes existing.bic →
      index_of hashes cur.bic < index_of hashes existing.bic →
      mergeFix hashes st np cur =
        { st with fixed_files := st.fixed_files.set i { existing with bic := cur.bic } })
    ∧ (∀ (hashes : List String) (st : FFState) (np : String) (cur : FixedFile)
        (i : Nat) (existing : FixedFile),
      st.fixed_files.findIdx? (fun g => ffSamePath g cur) = some i →
      st.fixed_files[i]? = some existing →
      ¬ index_of hashes cur.fic < index_of hashes existing.bic →
      ¬ index_of hashes cur.bic < index_of hashes existing.bic →
      mergeFix hashes st np cur = st)
    ∧ get_fixed_files histC3 ["c1", "c3"] (fun _ _ => false) blameC3 [] =
        some [{ filepath := "f", bic := "c2", fic := "c3" },
              { filepath := "f", bic := "c0", fic := "c1" }] := by
  refine ⟨?_, ?_, ?_, ?_, by decide⟩
  · intro hashes st np cur hfind
    simp only [mergeFix, hfind]
  · intro hashes st np cur i existing hfind hget h1
    simp only [mergeFix, hfind, hget]
    rw [if_pos h1]
  · intro hashes st np cur i existing hfind hget h1 h2
    simp only [mergeFix, hfind, hget]
    rw [if_neg h1, if_pos h2]
  · intro hashes st np cur i existing hfind hget h1 h2
    simp only [mergeFix, hfind, hget]
    rw [if_neg h1, if_neg h2]

/-- Witness for C3: the dedup rule at concrete states — an empty
collection receives the candidate, and a candidate window lying entirely
before the existing one is appended as a second entry. -/
theorem dedup_rule_behaviour_witness :
    mergeFix (histC3.map Commit.hash)
        { fixed_files := [], renamed_files := [] } "f"
        { filepath := "f", bic := "c2", fic := "c3" } =
      { fixed_files := [{ filepath := "f", bic := "c2", fic := "c3" }],
        renamed_files := [] }
    ∧ mergeFix (histC3.map Commit.hash)
        { fixed_files := [{ filepath := "f", bic := "c2", fic := "c3" }],
          renamed_files := [] } "f"
        { filepath := "f", bic := "c0", fic := "c1" } =
      { fixed_files := [{ filepath := "f", bic := "c2", fic := "c3" },
                        { filepath := "f", bic := "c0", fic := "c1" }],
        renamed_files := [] } :=
  ⟨dedup_rule_behaviour.1 (histC3.map Commit.hash)
      { fixed_files := [], renamed_files := [] } "f"
      { filepath := "f", bic := "c2", fic := "c3" } (by decide),
   dedup_rule_behaviour.2.1 (histC3.map Commit.hash)
      { fixed_files := [{ filepath := "f", bic := "c2", fic := "c3" }],
        renamed_files := [] } "f"
      { filepath := "f", bic := "c0", fic := "c1" } 0
      { filepath := "f", bic := "c2", fic := "c3" } (by decide) (by decide) (by decide)⟩

/-! ### The fixing-commit selector's relevance filter (C6)

`BaseMiner.discard_undesired_fixing_commits` (base.py lines 130-168) and
the `PythonMiner` override (python_miner.py lines 13-27). -/

/-- The inner while-loop of `BaseMiner.discard_undesired_fixing_commits`
(base.py lines 156-165): `true` when the scan runs off the end of the
modified files — every file is either not MODIFY-type or ignored — and
`false` when it breaks at a relevant MODIFY-type file. -/
def undesired_scan (ignore : String → Option String → Bool) :
    List ModifiedFile → Bool
  | [] => true
  | mf :: rest =>
    if mf.change_type ≠ ModificationType.MODIFY then undesired_scan ignore rest
    else if ignore mf.new_path mf.source_code then undesired_scan ignore rest
    else false

/-- `BaseMiner.discard_undesired_fixing_commits` (base.py lines 130-168):
sort the candidates, traverse the span from the first to the last
candidate, and remove every commit whose scan ran off the end.  `none`
models the `IndexError` of `commits[0]` when the in-place sort leaves the
list empty. -/
def discard_undesired_fixing_commits (hist : List Commit)
    (ignore : String → Option String → Bool) (commits : List String) :
    Option (List String) :=
  if commits = [] then some commits
  else
    let hashes := hist.map Commit.hash
    match sort_commits hashes commits with
    | [] => none
    | c :: rest =>
      let lo := index_of hashes c
      let hi := index_of hashes ((c :: rest).getLast (List.cons_ne_nil c rest))
      let span := (hist.drop lo).take (hi - lo + 1)
      some (span.foldl
        (fun cs commit =>
          if undesired_scan ignore commit.modified_files ∧ commit.hash ∈ cs then
            cs.erase commit.hash
          else cs)
        (c :: rest))

/-- The label pruning of `BaseMiner.get_fixing_commits` (base.py lines
230-232): the labels of every commit no longer in the kept candidate list
are removed from the returned mapping. -/
def prune_labels (labels : List (String × List String)) (commits : List String) :
    List (String × List String) :=
  labels.filter (fun p => decide (p.1 ∈ commits))

/-- Python `str.endswith`. -/
def endswith (s suffix : String) : Bool :=
  suffix.data.isSuffixOf s.data

/-- `PythonMiner.ignore_file` (python_miner.py lines 29-30): ignore every
file whose path does not end in `.py`. -/
def python_ignore_file (p : String) (_ : Option String) : Bool :=
  ! endswith p ".py"

/-- The inner while-loop of `PythonMiner.discard_undesired_fixing_commits`
(python_miner.py lines 19-21): the index advances only while the current
file is MODIFY-type AND ends in `.py`, and the commit is removed when the
index reaches the end — so this scan returns `true` exactly when every
modified file is a relevant MODIFY-type `.py` file. -/
def py_undesired_scan : List ModifiedFile → Bool
  | [] => true
  | mf :: rest =>
    if mf.change_type = ModificationType.MODIFY ∧ endswith mf.new_path ".py" = true then
      py_undesired_scan rest
    else false

/-- `PythonMiner.discard_undesired_fixing_commits` (python_miner.py lines
13-27): same span traversal, but removal is decided by
`py_undesired_scan`, and the `try/except` around `commits.remove` makes a
removal of an absent hash a no-op. -/
def python_discard_undesired (hist : List Commit) (commits : List String) :
    Option (List String) :=
  let hashes := hist.map Commit.hash
  match sort_commits hashes commits with
  | [] => none
  | c :: rest =>
    let lo := index_of hashes c
    let hi := index_of hashes ((c :: rest).getLast (List.cons_ne_nil c rest))
    let span := (hist.drop lo).take (hi - lo + 1)
    some (span.foldl
      (fun cs commit =>
        if py_undesired_scan commit.modified_files then cs.erase commit.hash else cs)
      (c :: rest))

/-- A MODIFY-type change of a relevant Python file. -/
def mfPy : ModifiedFile :=
  { change_type := ModificationType.MODIFY, old_path := "app.py",
    new_path := "app.py", source_code := none, diff_added := [], diff_deleted := [] }

/-- A one-commit history whose only commit modifies `app.py`. -/
def histC6 : List Commit :=
  [{ hash := "c0", msg := "", modified_files := [mfPy] }]

/-- C6: in `BaseMiner`, a candidate commit is discarded exactly when none
of its MODIFY-type modified files passes the relevance predicate, and the
labels of discarded commits are removed from the returned mapping; but the
`PythonMiner` override inverts the scan — on a commit whose single
modified file is a relevant MODIFY-type `.py` file, the base filter keeps
the candidate while `PythonMiner` removes it. -/
theorem relevance_filter_behaviour :
    (∀ (ignore : String → Option String → Bool) (files : List ModifiedFile),
      undesired_scan ignore files = true ↔
        ∀ mf ∈ files, mf.change_type = ModificationType.MODIFY →
          ignore mf.new_path mf.source_code = true)
    ∧ (∀ (labels : List (String × List String)) (commits : List String)
        (p : String × List String),
      p ∈ prune_labels labels commits ↔ p ∈ labels ∧ p.1 ∈ commits)
    ∧ python_ignore_file mfPy.new_path mfPy.source_code = false
    ∧ undesired_scan python_ignore_file [mfPy] = false
    ∧ discard_undesired_fixing_commits histC6 python_ignore_file ["c0"] = some ["c0"]
    ∧ py_undesired_scan [mfPy] = true
    ∧ python_discard_undesired histC6 ["c0"] = some [] := by
  refine ⟨?_, ?_, by decide, by decide, by decide, by decide, by decide⟩
  · intro ignore files
    induction files with
    | nil => simp [undesired_scan]
    | cons mf rest ih =>
      by_cases hty : mf.change_type = ModificationType.MODIFY
      · by_cases hig : ignore mf.new_path mf.source_code = true
        · simp [undesired_scan, hty, hig, ih, List.forall_mem_cons]
        · simp [undesired_scan, hty, hig, List.forall_mem_cons]
      · simp [undesired_scan, hty, ih, List.forall_mem_cons]
  · intro labels commits p
    simp [prune_labels, List.mem_filter]

/-! ### The defect classifier (`FixingCommitClassifier`, base.py lines 423-650)

The NLTK tokenizers, the dependency extractor `utils.get_head_dependents`
and the lexical patterns of `repominer.mining.rules` are external
collaborators (the spec lists them as out of scope / pluggable rule data);
they are the fields of `NLP` below.  Python's `str.strip` and
`str.isalpha` builtins are embedded directly. -/

/-- Python `str.strip()`: trim whitespace at both ends. -/
def strip (s : String) : String :=
  String.mk (((s.data.dropWhile Char.isWhitespace).reverse.dropWhile
    Char.isWhitespace).reverse)

/-- Python `str.isalpha()`: non-empty and all-alphabetic. -/
def isalpha (s : String) : Bool :=
  decide (s.data ≠ []) && s.data.all Char.isAlpha

/-- Python `str.startswith`. -/
def startswith (s pre : String) : Bool :=
  pre.data.isPrefixOf s.data

/-- The external text collaborators of the classifier: the NLTK sentence
and word tokenizers, the dependency-phrase extractor, and the lexical
patterns of `repominer.mining.rules`. -/
structure NLP where
  sent_tokenize : String → List String
  word_tokenize : String → List String
  get_head_dependents : String → List String
  has_defect_pattern : String → Bool
  has_conditional_pattern : String → Bool
  has_storage_configuration_pattern : String → Bool
  has_file_configuration_pattern : String → Bool
  has_network_configuration_pattern : String → Bool
  has_user_configuration_pattern : String → Bool
  has_cache_configuration_pattern : String → Bool
  has_dependency_pattern : String → Bool
  has_documentation_pattern : String → Bool
  has_idempotency_pattern : String → Bool
  has_security_pattern : String → Bool
  has_service_pattern : String → Bool
  has_syntax_pattern : String → Bool

/-- The `sentences` attribute built by the classifier's constructor
(base.py lines 449-458): tokenize the message into sentences, each into
words, keep the alphabetic words, stripped. -/
def sentences (nlp : NLP) (c : Commit) : List (List String) :=
  (nlp.sent_tokenize c.msg).map (fun s =>
    ((nlp.word_tokenize s).filter (fun w => isalpha w)).map (fun w => strip w))

/-- `FixingCommitClassifier.is_comment_changed` (base.py lines 460-479):
some MODIFY-type file has an added or deleted diff line that, stripped,
starts with `#`. -/
def is_comment_changed (c : Commit) : Bool :=
  c.modified_files.any (fun mf =>
    decide (mf.change_type = ModificationType.MODIFY)
      && ((mf.diff_added.map (fun p => strip p.2)
            ++ mf.diff_deleted.map (fun p => strip p.2)).any
          (fun line => startswith line "#")))

/-- `is_data_changed` (base.py lines 481-482): an intentionally
unimplemented structural hook, always `False` in the base class. -/
def is_data_changed (_ : Commit) : Bool := false

/-- `is_include_changed` (base.py lines 484-485): always `False`. -/
def is_include_changed (_ : Commit) : Bool := false

/-- `is_service_changed` (base.py lines 487-488): always `False`. -/
def is_service_changed (_ : Commit) : Bool := false

/-- `fixes_conditional` (base.py lines 490-506). -/
def fixes_conditional (nlp : NLP) (c : Commit) : Bool :=
  (sentences nlp c).any (fun toks =>
    let s := String.intercalate " " toks
    let dep := String.intercalate " " (nlp.get_head_dependents s)
    nlp.has_defect_pattern s && nlp.has_conditional_pattern dep)

/-- `fixes_configuration_data` (base.py lines 508-532). -/
def fixes_configuration_data (nlp : NLP) (c : Commit) : Bool :=
  (sentences nlp c).any (fun toks =>
    let s := String.intercalate " " toks
    let dep := String.intercalate " " (nlp.get_head_dependents s)
    nlp.has_defect_pattern s
      && (nlp.has_storage_configuration_pattern dep
          || nlp.has_file_configuration_pattern dep
          || nlp.has_network_configuration_pattern dep
          || nlp.has_user_configuration_pattern dep
          || nlp.has_cache_configuration_pattern dep
          || is_data_changed c))

/-- `fixes_dependency` (base.py lines 534-553). -/
def fixes_dependency (nlp : NLP) (c : Commit) : Bool :=
  (sentences nlp c).any (fun toks =>
    let s := String.intercalate " " toks
    let dep := String.intercalate " " (nlp.get_head_dependents s)
    nlp.has_defect_pattern s
      && (nlp.has_dependency_pattern dep || is_include_changed c))

/-- `fixes_documentation` (base.py lines 555-573). -/
def fixes_documentation (nlp : NLP) (c : Commit) : Bool :=
  (sentences nlp c).any (fun toks =>
    let s := String.intercalate " " toks
    let dep := String.intercalate " " (nlp.get_head_dependents s)
    nlp.has_defect_pattern s
      && (nlp.has_documentation_pattern dep || is_comment_changed c))

/-- `fixes_idempotency` (base.py lines 575-592). -/
def fixes_idempotency (nlp : NLP) (c : Commit) : Bool :=
  (sentences nlp c).any (fun toks =>
    let s := String.intercalate " " toks
    let dep := String.intercalate " " (nlp.get_head_dependents s)
    nlp.has_defect_pattern s && nlp.has_idempotency_pattern dep)

/-- `fixes_security` (base.py lines 594-611). -/
def fixes_security (nlp : NLP) (c : Commit) : Bool :=
  (sentences nlp c).any (fun toks =>
    let s := String.intercalate " " toks
    let dep := String.intercalate " " (nlp.get_head_dependents s)
    nlp.has_defect_pattern s && nlp.has_security_pattern dep)

/-- `fixes_service` (base.py lines 613-631). -/
def fixes_service (nlp : NLP) (c : Commit) : Bool :=
  (sentences nlp c).any (fun toks =>
    let s := String.intercalate " " toks
    let dep := String.intercalate " " (nlp.get_head_dependents s)
    nlp.has_defect_pattern s
      && (nlp.has_service_pattern dep || is_service_changed c))

/-- `fixes_syntax` (base.py lines 633-650). -/
def fixes_syntax (nlp : NLP) (c : Commit) : Bool :=
  (sentences nlp c).any (fun toks =>
    let s := String.intercalate " " toks
    let dep := String.intercalate " " (nlp.get_head_dependents s)
    nlp.has_defect_pattern s && nlp.has_syntax_pattern dep)

/-- The label set of one commit, in the order `get_fixing_commits`
(base.py lines 200-215) appends the labels. -/
def classify (nlp : NLP) (c : Commit) : List String :=
  (if fixes_conditional nlp c then ["CONDITIONAL"] else [])
    ++ (if fixes_configuration_data nlp c then ["CONFIGURATION_DATA"] else [])
    ++ (if fixes_dependency nlp c then ["DEPENDENCY"] else [])
    ++ (if fixes_documentation nlp c then ["DOCUMENTATION"] else [])
    ++ (if fixes_idempotency nlp c then ["IDEMPOTENCY"] else [])
    ++ (if fixes_security nlp c then ["SECURITY"] else [])
    ++ (if fixes_service nlp c then ["SERVICE"] else [])
    ++ (if fixes_syntax nlp c then ["SYNTAX"] else [])

/-- C8: the defect classifier is a pure function of the commit's content:
two commits with equal message and equal modified-file data — whatever
their other attributes, e.g. their hashes — receive the same label set
from the eight `fixes_*` predicates, for every tokenizer/pattern
collaborator. -/
theorem classifier_deterministic (nlp : NLP) (c1 c2 : Commit)
    (hmsg : c1.msg = c2.msg) (hfiles : c1.modified_files = c2.modified_files) :
    classify nlp c1 = classify nlp c2 := by
  cases c1 with
  | mk h1 m1 f1 =>
    cases c2 with
    | mk h2 m2 f2 =>
      simp only [Commit.msg, Commit.modified_files] at hmsg hfiles
      subst hmsg
      subst hfiles
      rfl

/-- The all-constant collaborator used by the C8 witness. -/
def nlpConst : NLP :=
  { sent_tokenize := fun _ => [], word_tokenize := fun _ => [],
    get_head_dependents := fun _ => [],
    has_defect_pattern := fun _ => false,
    has_conditional_pattern := fun _ => false,
    has_storage_configuration_pattern := fun _ => false,
    has_file_configuration_pattern := fun _ => false,
    has_network_configuration_pattern := fun _ => false,
    has_user_configuration_pattern := fun _ => false,
    has_cache_configuration_pattern := fun _ => false,
    has_dependency_pattern := fun _ => false,
    has_documentation_pattern := fun _ => false,
    has_idempotency_pattern := fun _ => false,
    has_security_pattern := fun _ => false,
    has_service_pattern := fun _ => false,
    has_syntax_pattern := fun _ => false }

/-- Witness for C8: two commits equal in message and files but with
different hashes are classified identically. -/
theorem classifier_deterministic_witness :
    classify nlpConst { hash := "aaa", msg := "Fix bug", modified_files := [] }
      = classify nlpConst { hash := "bbb", msg := "Fix bug", modified_files := [] } :=
  classifier_deterministic nlpConst
    { hash := "aaa", msg := "Fix bug", modified_files := [] }
    { hash := "bbb", msg := "Fix bug", modified_files := [] } rfl rfl

end RepoMiner
